import Mathlib

/-!
# Verification of the C3 (Compressed Continuous Computation) regression layer

Shallow embedding, over exact rationals, of the FT-regression code:
the least-squares objectives (`ft_param_eval_objective_aio_ls`,
`ft_param_eval_objective_als_ls`, `regress_core_LS`), the restricted-rank
parameter-update functions, cross-validation, rank adaptation, the
non-finite-value policy of the optimizer callbacks, the regression memory
manager's structure cache, the ALS sweep driver, and the function monitor's
memoization table.

External collaborators (function-train evaluation/gradient routines, BLAS,
the optimizer) are modelled as oracle parameters; everything the claims are
about — loop structure, accumulation arithmetic, control flow — is
translated directly from the C source.
-/

namespace C3V

/-! ## Least-squares objectives (claim C1)

A data point, as the objective functions see it: the label `y[ii]`, the FT
evaluation at the point (written by the external evaluation routine into
`mem->evals->vals[ii]`), and the gradient of the FT evaluation with respect
to the parameters (row `ii` of `mem->grad->vals`, resp. `als->grad_space`),
modelled as a function from parameter index to value. -/
structure DataPoint where
  y : ℚ
  feval : ℚ
  g : ℕ → ℚ

/-- `cblas_daxpy(n, a, x, 1, yv, 1)`: adds `a * x` into the first `n`
entries of the buffer `yv`, leaving the rest untouched. -/
def daxpy (n : ℕ) (a : ℚ) (x : ℕ → ℚ) (yv : ℕ → ℚ) : ℕ → ℚ :=
  fun j => if j < n then yv j + a * x j else yv j

/-- The shared accumulation loop of all three least-squares objectives:
for each data point, `resid = y[ii] - eval[ii]`, `out += 0.5*resid*resid`,
`cblas_daxpy(nparam, -resid, g_ii, 1, grad, 1)`. -/
def lsAccum (nparam : ℕ) : List DataPoint → ℚ → (ℕ → ℚ) → ℚ × (ℕ → ℚ)
  | [], out, grad => (out, grad)
  | p :: ps, out, grad =>
      lsAccum nparam ps (out + 1/2 * (p.y - p.feval) * (p.y - p.feval))
        (daxpy nparam (-(p.y - p.feval)) p.g grad)

/-- `ft_param_eval_objective_aio_ls` (gradient branch): accumulates the
objective and the gradient into the caller-supplied buffer `grad0`, then
divides the objective and the first `nparams` gradient entries by `N`. -/
def ft_param_eval_objective_aio_ls (nparams : ℕ) (data : List DataPoint)
    (grad0 : ℕ → ℚ) : ℚ × (ℕ → ℚ) :=
  let r := lsAccum nparams data 0 grad0
  (r.1 / data.length, fun j => if j < nparams then r.2 j / data.length else r.2 j)

/-- `ft_param_eval_objective_als_ls` (gradient branch): identical
accumulation, restricted to the active core's `nparams_per_core` many
parameters, with the same final division by `N`. -/
def ft_param_eval_objective_als_ls (nparams_active : ℕ) (data : List DataPoint)
    (grad0 : ℕ → ℚ) : ℚ × (ℕ → ℚ) :=
  let r := lsAccum nparams_active data 0 grad0
  (r.1 / data.length,
   fun j => if j < nparams_active then r.2 j / data.length else r.2 j)

/-- `regress_core_LS` (gradient branch, `lib_clinalg/regress.c`): zeroes the
gradient buffer, then runs the same accumulation — but performs NO division
by `N` on either the objective or the gradient. -/
def regress_core_LS (nparam : ℕ) (data : List DataPoint) : ℚ × (ℕ → ℚ) :=
  lsAccum nparam data 0 (fun _ => 0)

/-- Specification-side mean: `(1/N) * Σ 0.5 * resid²`. -/
def meanHalfSqResid (data : List DataPoint) : ℚ :=
  (data.map (fun p => 1/2 * (p.y - p.feval) * (p.y - p.feval))).sum / data.length

/-- Specification-side objective sum `Σ 0.5 * resid²` (no normalization). -/
def sumHalfSqResid (data : List DataPoint) : ℚ :=
  (data.map (fun p => 1/2 * (p.y - p.feval) * (p.y - p.feval))).sum

/-- Specification-side gradient accumulation `Σ_i -resid_i * g_i j`. -/
def sumNegResidGrad (data : List DataPoint) (j : ℕ) : ℚ :=
  (data.map (fun p => -(p.y - p.feval) * p.g j)).sum

theorem lsAccum_fst (nparam : ℕ) (data : List DataPoint) (out : ℚ)
    (grad : ℕ → ℚ) :
    (lsAccum nparam data out grad).1 = out + sumHalfSqResid data := by
  induction data generalizing out grad with
  | nil => simp [lsAccum, sumHalfSqResid]
  | cons p ps ih => simp [lsAccum, sumHalfSqResid, ih]; ring

theorem lsAccum_snd (nparam : ℕ) (data : List DataPoint) (out : ℚ)
    (grad : ℕ → ℚ) (j : ℕ) (hj : j < nparam) :
    (lsAccum nparam data out grad).2 j = grad j + sumNegResidGrad data j := by
  induction data generalizing out grad with
  | nil => simp [lsAccum, sumNegResidGrad]
  | cons p ps ih =>
      simp only [lsAccum, ih, daxpy, if_pos hj, sumNegResidGrad, List.map_cons,
        List.sum_cons]
      ring

theorem lsAccum_snd_frame (nparam : ℕ) (data : List DataPoint) (out : ℚ)
    (grad : ℕ → ℚ) (j : ℕ) (hj : ¬ j < nparam) :
    (lsAccum nparam data out grad).2 j = grad j := by
  induction data generalizing out grad with
  | nil => simp [lsAccum]
  | cons p ps ih => simp only [lsAccum, ih, daxpy, if_neg hj]

/-- The concrete data used for the C1 counterexample: two points with
label 1 and FT evaluation 0. -/
def c1Data : List DataPoint :=
  [⟨1, 0, fun _ => 1⟩, ⟨1, 0, fun _ => 1⟩]

/-- C1 counterexample: `regress_core_LS` does NOT return the mean of
`0.5*resid²` over the N = 2 data points — it returns the raw sum (1),
not the mean (1/2), and its gradient is likewise not divided by N. -/
theorem C1_regress_core_LS_not_mean :
    (regress_core_LS 1 c1Data).1 ≠ meanHalfSqResid c1Data ∧
    (regress_core_LS 1 c1Data).2 0 ≠ sumNegResidGrad c1Data 0 / 2 := by
  constructor
  · show (lsAccum 1 c1Data 0 _).1 ≠ _
    rw [lsAccum_fst]
    norm_num [sumHalfSqResid, meanHalfSqResid, c1Data]
  · show (lsAccum 1 c1Data 0 _).2 0 ≠ _
    rw [lsAccum_snd 1 c1Data 0 _ 0 (by norm_num)]
    norm_num [sumNegResidGrad, c1Data]

/-- C1 (amended): every regression objective computes `resid = y_i - f(x_i)`
and accumulates `-resid_i * ∂f/∂θ` into the gradient; the all-at-once
objective `ft_param_eval_objective_aio_ls` and the per-core ALS objective
`ft_param_eval_objective_als_ls` return the mean of `0.5*resid²` and divide
the accumulated gradient by N, but `regress_core_LS` returns the raw sum
`Σ 0.5*resid²` and the raw accumulated gradient, with no division by N. -/
theorem C1_objective_conventions (nparams : ℕ) (data : List DataPoint)
    (grad0 : ℕ → ℚ) (j : ℕ) (hj : j < nparams) :
    (ft_param_eval_objective_aio_ls nparams data grad0).1 = meanHalfSqResid data ∧
    (ft_param_eval_objective_aio_ls nparams data grad0).2 j
      = (grad0 j + sumNegResidGrad data j) / data.length ∧
    (ft_param_eval_objective_als_ls nparams data grad0).1 = meanHalfSqResid data ∧
    (ft_param_eval_objective_als_ls nparams data grad0).2 j
      = (grad0 j + sumNegResidGrad data j) / data.length ∧
    (regress_core_LS nparams data).1 = sumHalfSqResid data ∧
    (regress_core_LS nparams data).2 j = sumNegResidGrad data j := by
  refine ⟨?_, ?_, ?_, ?_, ?_, ?_⟩
  · show (lsAccum nparams data 0 grad0).1 / _ = _
    rw [lsAccum_fst]; simp [meanHalfSqResid, sumHalfSqResid]
  · show (if j < nparams then _ else _) = _
    rw [if_pos hj, lsAccum_snd nparams data 0 grad0 j hj]
  · show (lsAccum nparams data 0 grad0).1 / _ = _
    rw [lsAccum_fst]; simp [meanHalfSqResid, sumHalfSqResid]
  · show (if j < nparams then _ else _) = _
    rw [if_pos hj, lsAccum_snd nparams data 0 grad0 j hj]
  · show (lsAccum nparams data 0 _).1 = _
    rw [lsAccum_fst]; simp
  · show (lsAccum nparams data 0 _).2 j = _
    rw [lsAccum_snd nparams data 0 _ j hj]; simp

/-- Witness for `C1_objective_conventions` at concrete data. -/
theorem C1_objective_conventions_witness :
    (ft_param_eval_objective_aio_ls 1 c1Data (fun _ => 0)).1
      = meanHalfSqResid c1Data ∧
    (regress_core_LS 1 c1Data).1 = sumHalfSqResid c1Data :=
  ⟨(C1_objective_conventions 1 c1Data (fun _ => 0) 0 (by norm_num)).1,
   (C1_objective_conventions 1 c1Data (fun _ => 0) 0 (by norm_num)).2.2.2.2.1⟩

/-! ## Restricted-rank parameter updates (claim C2)

`ft_param_update_restricted_ranks` and
`ft_param_update_inside_restricted_ranks` walk the flat parameter buffer in
the order: dimension `kk`, then output-rank index `jj` (`ranks[kk+1]`), then
input-rank index `ii` (`ranks[kk]`), then the `nparams_per_uni` parameters
of that univariate function (`ft_param_alloc` fills `nparams_per_uni` with
the per-dimension constant `multi_approx_opts_get_dim_nparams(aopts,kk)`,
so we model it as a function of the dimension).  Each position is written
from the input vector exactly when its selection condition holds; we
capture the traversal as a flat Boolean mask. -/

/-- Selection condition of `ft_param_update_restricted_ranks`:
for `kk > 0`, `ii ≥ rank_start[kk-1] || jj ≥ rank_start[kk]`;
for `kk = 0`, `jj ≥ rank_start[0]`. -/
def selRestricted (rank_start : ℕ → ℕ) (kk jj ii : ℕ) : Bool :=
  if kk = 0 then rank_start 0 ≤ jj
  else (rank_start (kk-1) ≤ ii || rank_start kk ≤ jj)

/-- Selection condition of `ft_param_update_inside_restricted_ranks`:
for `kk > 0`, `ii < rank_start[kk-1] && jj < rank_start[kk]`;
for `kk = 0`, `jj < rank_start[0]`. -/
def selInside (rank_start : ℕ → ℕ) (kk jj ii : ℕ) : Bool :=
  if kk = 0 then jj < rank_start 0
  else (ii < rank_start (kk-1) && jj < rank_start kk)

/-- Flattened traversal mask for a selection condition: iterate dimension,
then output-rank index, then input-rank index, then the per-univariate
parameters — exactly the nested loop order of both update functions. -/
def rankMask (dim : ℕ) (ranks : ℕ → ℕ) (nper : ℕ → ℕ)
    (sel : ℕ → ℕ → ℕ → Bool) : List Bool :=
  (List.range dim).flatMap (fun kk =>
    (List.range (ranks (kk+1))).flatMap (fun jj =>
      (List.range (ranks kk)).flatMap (fun ii =>
        List.replicate (nper kk) (sel kk jj ii))))

/-- The common write loop: walk the buffer and the mask together; at a
selected position consume the next entry of `params` (the counter
`onparam_new`), otherwise keep the buffer entry (`onparam_general` always
advances). -/
def maskedWrite : List Bool → List ℚ → List ℚ → List ℚ
  | [], _, buf => buf
  | _ :: _, _, [] => []
  | b :: ms, src, v :: buf =>
      if b then src.headD 0 :: maskedWrite ms src.tail buf
      else v :: maskedWrite ms src buf

/-- `ft_param_update_restricted_ranks`: overwrites the entries of the flat
parameter buffer whose (input-rank, output-rank) pair is at/above the
thresholds with the supplied values, in traversal order. -/
def ft_param_update_restricted_ranks (dim : ℕ) (ranks nper rank_start : ℕ → ℕ)
    (params buf : List ℚ) : List ℚ :=
  maskedWrite (rankMask dim ranks nper (selRestricted rank_start)) params buf

/-- `ft_param_update_inside_restricted_ranks`: overwrites the complementary
entries (both rank indices strictly below the thresholds). -/
def ft_param_update_inside_restricted_ranks (dim : ℕ)
    (ranks nper rank_start : ℕ → ℕ) (params buf : List ℚ) : List ℚ :=
  maskedWrite (rankMask dim ranks nper (selInside rank_start)) params buf

/-- `ft_param_update_params` copies the whole vector over the buffer. -/
def ft_param_update_params (params _buf : List ℚ) : List ℚ := params

/-- Extracting the subsequence of `v` at the `true` positions of a mask —
how a full parameter vector is split into the two complementary parts
(this is also the traversal of `extract_restricted_vals`). -/
def maskExtract (mask : List Bool) (v : List ℚ) : List ℚ :=
  ((mask.zip v).filter (fun q => q.1)).map (fun q => q.2)

theorem maskExtract_cons (b : Bool) (ms : List Bool) (x : ℚ) (vs : List ℚ) :
    maskExtract (b :: ms) (x :: vs)
      = if b then x :: maskExtract ms vs else maskExtract ms vs := by
  cases b <;> simp [maskExtract]

/-- Updating the at/above-threshold part and then the below-threshold part
reconstructs the full vector. -/
theorem maskedWrite_roundtrip (mask : List Bool) (v buf : List ℚ)
    (hv : v.length = mask.length) (hb : buf.length = mask.length) :
    maskedWrite (mask.map (fun b => !b))
      (maskExtract (mask.map (fun b => !b)) v)
      (maskedWrite mask (maskExtract mask v) buf) = v := by
  induction mask generalizing v buf with
  | nil =>
      cases v with
      | nil =>
          have hb0 : buf = [] := List.length_eq_zero.mp (by simpa using hb)
          subst hb0
          simp [maskedWrite]
      | cons _ _ => simp at hv
  | cons b ms ih =>
      cases v with
      | nil => simp at hv
      | cons x vs =>
        cases buf with
        | nil => simp at hb
        | cons y bs =>
          simp only [List.length_cons, Nat.succ_inj] at hv hb
          cases b <;>
            simp [maskExtract_cons, maskedWrite, ih vs bs hv hb]

/-- Positions whose mask entry is `false` are left untouched by
`maskedWrite` (the write loop advances without writing there). -/
theorem maskedWrite_frame (mask : List Bool) (src buf : List ℚ) (j : ℕ)
    (h : mask[j]? = some false) :
    (maskedWrite mask src buf)[j]? = buf[j]? := by
  induction mask generalizing src buf j with
  | nil => simp at h
  | cons b ms ih =>
      cases buf with
      | nil => cases j <;> simp [maskedWrite]
      | cons y bs =>
          cases j with
          | zero =>
              simp only [List.getElem?_cons_zero, Option.some_inj] at h
              subst h
              simp [maskedWrite]
          | succ j =>
              simp only [List.getElem?_cons_succ] at h
              cases b <;> simp [maskedWrite, ih _ _ _ h]

/-- The `inside` selection condition is the pointwise negation of the
at/above selection condition. -/
theorem selInside_eq_not_selRestricted (rank_start : ℕ → ℕ) (kk jj ii : ℕ) :
    selInside rank_start kk jj ii = !(selRestricted rank_start kk jj ii) := by
  unfold selInside selRestricted
  by_cases h : kk = 0
  · simp only [h, ite_true]
    rw [← decide_not]
    exact decide_eq_decide.mpr (by omega)
  · simp only [if_neg h, Bool.not_or, ← decide_not, ← Bool.decide_and]
    exact decide_eq_decide.mpr (by omega)

/-- The two update functions traverse the same positions (dimension, then
output-rank, then input-rank) with complementary masks. -/
theorem rankMask_inside_eq_not (dim : ℕ) (ranks nper rank_start : ℕ → ℕ) :
    rankMask dim ranks nper (selInside rank_start)
      = (rankMask dim ranks nper (selRestricted rank_start)).map (fun b => !b) := by
  unfold rankMask
  simp only [List.map_flatMap, List.map_replicate]
  refine List.flatMap_congr ?_
  intro kk _
  refine List.flatMap_congr ?_
  intro jj _
  refine List.flatMap_congr ?_
  intro ii _
  rw [selInside_eq_not_selRestricted]

/-- C2: splitting a full parameter vector `v` along the restricted-rank
selection, updating the at/above part with `ft_param_update_restricted_ranks`
and then the below part with `ft_param_update_inside_restricted_ranks`,
writes every buffer entry exactly once (each position is touched by exactly
one of the two complementary passes) and reconstructs the same buffer as the
single full update `ft_param_update_params v`; both passes traverse
dimension, then output-rank index, then input-rank index. -/
theorem C2_restricted_update_partition (dim : ℕ)
    (ranks nper rank_start : ℕ → ℕ) (v buf : List ℚ)
    (hv : v.length = (rankMask dim ranks nper (selRestricted rank_start)).length)
    (hb : buf.length = (rankMask dim ranks nper (selRestricted rank_start)).length) :
    (ft_param_update_inside_restricted_ranks dim ranks nper rank_start
        (maskExtract (rankMask dim ranks nper (selInside rank_start)) v)
        (ft_param_update_restricted_ranks dim ranks nper rank_start
          (maskExtract (rankMask dim ranks nper (selRestricted rank_start)) v) buf)
      = ft_param_update_params v buf) ∧
    (∀ (j : ℕ) (src₁ : List ℚ),
      (rankMask dim ranks nper (selRestricted rank_start))[j]? = some false →
      (ft_param_update_restricted_ranks dim ranks nper rank_start src₁ buf)[j]?
        = buf[j]?) ∧
    (∀ (j : ℕ) (src₂ buf₂ : List ℚ),
      (rankMask dim ranks nper (selRestricted rank_start))[j]? = some true →
      (ft_param_update_inside_restricted_ranks dim ranks nper rank_start
        src₂ buf₂)[j]? = buf₂[j]?) := by
  refine ⟨?_, ?_, ?_⟩
  · unfold ft_param_update_inside_restricted_ranks
      ft_param_update_restricted_ranks ft_param_update_params
    rw [rankMask_inside_eq_not]
    exact maskedWrite_roundtrip _ v buf hv hb
  · intro j src₁ hj
    exact maskedWrite_frame _ src₁ buf j hj
  · intro j src₂ buf₂ hj
    unfold ft_param_update_inside_restricted_ranks
    rw [rankMask_inside_eq_not]
    refine maskedWrite_frame _ src₂ buf₂ j ?_
    simp [List.getElem?_map, hj]

/-- Concrete instance for the C2 witness: dimension 2, ranks (1,3,1),
2 parameters per univariate function, rank thresholds (1,0). -/
def c2Ranks : ℕ → ℕ := fun k => [1, 3, 1].getD k 0

def c2V : List ℚ := [1, 2, 3, 4, 5, 6, 7, 8, 9, 10, 11, 12]

/-- Witness for `C2_restricted_update_partition`. -/
theorem C2_restricted_update_partition_witness :
    (ft_param_update_inside_restricted_ranks 2 c2Ranks (fun _ => 2)
        (fun k => [1, 0].getD k 0)
        (maskExtract (rankMask 2 c2Ranks (fun _ => 2)
          (selInside (fun k => [1, 0].getD k 0))) c2V)
        (ft_param_update_restricted_ranks 2 c2Ranks (fun _ => 2)
          (fun k => [1, 0].getD k 0)
          (maskExtract (rankMask 2 c2Ranks (fun _ => 2)
            (selRestricted (fun k => [1, 0].getD k 0))) c2V)
          (List.replicate 12 0))
      = ft_param_update_params c2V (List.replicate 12 0)) :=
  (C2_restricted_update_partition 2 c2Ranks (fun _ => 2)
    (fun k => [1, 0].getD k 0) c2V (List.replicate 12 0)
    (by decide) (by decide)).1

/-! ## Cross-validation (claims C3, C4)

`cross_validate_run` iterates `kfold` folds over `N` data rows.  The inner
call `ft_regress_run` (training) and `function_train_eval` (prediction on
the held-out block) are external from this loop's point of view; they are
modelled by an oracle `runO : fold index → entry parameters →
(trained parameters, predictor over global row index)`.  Rows are
identified by their index; labels by `y : ℕ → ℚ`. -/
structure CVData where
  N : ℕ
  kfold : ℕ
  y : ℕ → ℚ

/-- Oracle for one call of `ft_regress_run` inside a CV fold. -/
def RunOracle : Type := ℕ → List ℚ → List ℚ × (ℕ → ℚ)

/-- `extract_data`: the test rows are the contiguous block
`[start, start+num)`; the training rows are all rows before `start`
followed by all rows after the block. -/
def extract_data (N start num : ℕ) : List ℕ × List ℕ :=
  (List.range' start num,
   List.range start ++ List.range' (start + num) (N - start - num))

/-- Loop state of `cross_validate_run`: running start index of the next
held-out block, accumulated squared error, accumulated squared label norm,
and the regression's live flat parameter vector. -/
structure CVState where
  start_num : ℕ
  erri : ℚ
  norm : ℚ
  params : List ℚ

/-- Batch size of fold `ii`: `N / kfold` (integer division), except the
last fold, which takes all remaining rows. -/
def cvBatch (cv : CVData) (ii start_num : ℕ) : ℕ :=
  if ii = cv.kfold - 1 then cv.N - start_num else cv.N / cv.kfold

/-- Body of the fold loop of `cross_validate_run`: extract the held-out
block, train on the complement from the current live parameters, accumulate
the block's squared errors and squared labels, advance `start_num`, and
reset the live parameters to the snapshot. -/
def cvFoldStep (cv : CVData) (runO : RunOracle) (snapshot : List ℚ)
    (s : CVState) (ii : ℕ) : CVState :=
  let batch := cvBatch cv ii s.start_num
  let pred := (runO ii s.params).2
  let newerr := ((List.range' s.start_num batch).map
    (fun j => (cv.y j - pred j) * (cv.y j - pred j))).sum
  let newnorm := ((List.range' s.start_num batch).map
    (fun j => cv.y j * cv.y j)).sum
  ⟨s.start_num + batch, s.erri + newerr, s.norm + newnorm, snapshot⟩

/-- State after the first `m` folds (the snapshot taken before the first
fold is the entry parameter vector `params0`). -/
def cvStateAt (cv : CVData) (runO : RunOracle) (params0 : List ℚ) (m : ℕ) :
    CVState :=
  (List.range m).foldl (cvFoldStep cv runO params0) ⟨0, 0, 0, params0⟩

/-- `cross_validate_run`: returns the aggregate error
`sum(squared_error) / sum(squared_label_norm)` and the final live
parameter vector. -/
def cross_validate_run (cv : CVData) (runO : RunOracle) (params0 : List ℚ) :
    ℚ × List ℚ :=
  let final := cvStateAt cv runO params0 cv.kfold
  (final.erri / final.norm, final.params)

/-- Claimed held-out block of fold `i`: rows
`[i*(N/kfold), (i+1)*(N/kfold))` for `i < kfold-1`, and all remaining rows
for the last fold. -/
def cvTestBlock (cv : CVData) (i : ℕ) : List ℕ :=
  if i = cv.kfold - 1 then
    List.range' ((cv.kfold - 1) * (cv.N / cv.kfold))
      (cv.N - (cv.kfold - 1) * (cv.N / cv.kfold))
  else List.range' (i * (cv.N / cv.kfold)) (cv.N / cv.kfold)

/-- Squared test error of fold `i`, with each fold trained from the
snapshot parameters. -/
def cvFoldErr (cv : CVData) (runO : RunOracle) (params0 : List ℚ) (i : ℕ) : ℚ :=
  ((cvTestBlock cv i).map
    (fun j => (cv.y j - (runO i params0).2 j) * (cv.y j - (runO i params0).2 j))).sum

/-- Squared label norm of fold `i`'s held-out block. -/
def cvFoldNorm (cv : CVData) (i : ℕ) : ℚ :=
  ((cvTestBlock cv i).map (fun j => cv.y j * cv.y j)).sum

/-- Claimed start index after `m` folds. -/
def cvStartSpec (cv : CVData) (m : ℕ) : ℕ :=
  if m < cv.kfold then m * (cv.N / cv.kfold) else cv.N

theorem cvStateAt_succ (cv : CVData) (runO : RunOracle) (params0 : List ℚ)
    (m : ℕ) :
    cvStateAt cv runO params0 (m+1)
      = cvFoldStep cv runO params0 (cvStateAt cv runO params0 m) m := by
  unfold cvStateAt
  rw [List.range_succ, List.foldl_append]
  rfl

/-- Full characterization of the loop state after `m ≤ kfold` folds. -/
theorem cvStateAt_spec (cv : CVData) (runO : RunOracle) (params0 : List ℚ)
    (hk : 0 < cv.kfold) (m : ℕ) (hm : m ≤ cv.kfold) :
    cvStateAt cv runO params0 m
      = ⟨cvStartSpec cv m,
         ((List.range m).map (cvFoldErr cv runO params0)).sum,
         ((List.range m).map (cvFoldNorm cv)).sum,
         params0⟩ := by
  induction m with
  | zero =>
      simp only [cvStateAt, List.range_zero, List.foldl_nil, List.map_nil,
        List.sum_nil]
      unfold cvStartSpec
      rw [if_pos hk]
      simp
  | succ m ih =>
      have hmk : m < cv.kfold := Nat.lt_of_succ_le hm
      rw [cvStateAt_succ, ih (Nat.le_of_lt hmk)]
      have hb : (cv.kfold - 1) * (cv.N / cv.kfold) ≤ cv.N := by
        have h1 : (cv.kfold - 1) * (cv.N / cv.kfold)
            ≤ cv.kfold * (cv.N / cv.kfold) :=
          Nat.mul_le_mul_right _ (Nat.sub_le _ _)
        have h2 : cv.kfold * (cv.N / cv.kfold) ≤ cv.N := by
          rw [Nat.mul_comm]; exact Nat.div_mul_le_self _ _
        omega
      by_cases hlast : m = cv.kfold - 1
      · -- last fold: batch is all remaining rows
        have hstart : cvStartSpec cv m = m * (cv.N / cv.kfold) := by
          unfold cvStartSpec; rw [if_pos hmk]
        have hm1 : ¬ (m + 1 < cv.kfold) := by omega
        simp only [cvFoldStep, cvBatch, hstart, if_pos hlast]
        simp only [CVState.mk.injEq]
        refine ⟨?_, ?_, ?_, trivial⟩
        · unfold cvStartSpec
          rw [if_neg hm1, hlast]
          omega
        · rw [List.range_succ, List.map_append, List.sum_append]
          simp only [List.map_cons, List.map_nil, List.sum_cons, List.sum_nil,
            add_zero]
          unfold cvFoldErr cvTestBlock
          rw [if_pos hlast, hlast]
        · rw [List.range_succ, List.map_append, List.sum_append]
          simp only [List.map_cons, List.map_nil, List.sum_cons, List.sum_nil,
            add_zero]
          unfold cvFoldNorm cvTestBlock
          rw [if_pos hlast, hlast]
      · -- interior fold: batch is N / kfold
        have hstart : cvStartSpec cv m = m * (cv.N / cv.kfold) := by
          unfold cvStartSpec; rw [if_pos hmk]
        have hm1 : m + 1 < cv.kfold := by omega
        simp only [cvFoldStep, cvBatch, hstart, if_neg hlast]
        simp only [CVState.mk.injEq]
        refine ⟨?_, ?_, ?_, trivial⟩
        · unfold cvStartSpec
          rw [if_pos hm1]
          ring
        · rw [List.range_succ, List.map_append, List.sum_append]
          simp only [List.map_cons, List.map_nil, List.sum_cons, List.sum_nil,
            add_zero]
          unfold cvFoldErr cvTestBlock
          rw [if_neg hlast]
        · rw [List.range_succ, List.map_append, List.sum_append]
          simp only [List.map_cons, List.map_nil, List.sum_cons, List.sum_nil,
            add_zero]
          unfold cvFoldNorm cvTestBlock
          rw [if_neg hlast]

/-- C3: `cross_validate_run` splits the `N` rows deterministically into
contiguous blocks: fold `i` (for `i < kfold-1`) holds out rows
`[i*(N/kfold), (i+1)*(N/kfold))`, the last fold holds out all remaining
rows; each fold trains on the complement of its held-out block
(`extract_data`); and the returned error is the aggregate
`sum(squared_error) / sum(squared_label_norm)`, not an average of per-fold
relative errors. -/
theorem C3_cv_contiguous_folds (cv : CVData) (runO : RunOracle)
    (params0 : List ℚ) (hk : 0 < cv.kfold) :
    (∀ i, i < cv.kfold →
      List.range' (cvStateAt cv runO params0 i).start_num
          (cvBatch cv i (cvStateAt cv runO params0 i).start_num)
        = cvTestBlock cv i) ∧
    (∀ start num, start + num ≤ cv.N →
      ∀ r : ℕ, r ∈ (extract_data cv.N start num).2
        ↔ (r < cv.N ∧ r ∉ (extract_data cv.N start num).1)) ∧
    (cross_validate_run cv runO params0).1
      = ((List.range cv.kfold).map (cvFoldErr cv runO params0)).sum
        / ((List.range cv.kfold).map (cvFoldNorm cv)).sum := by
  refine ⟨?_, ?_, ?_⟩
  · intro i hi
    rw [cvStateAt_spec cv runO params0 hk i (Nat.le_of_lt hi)]
    have hstart : cvStartSpec cv i = i * (cv.N / cv.kfold) := by
      unfold cvStartSpec; rw [if_pos hi]
    by_cases hlast : i = cv.kfold - 1
    · simp only [cvBatch, hstart, if_pos hlast]
      unfold cvTestBlock
      rw [if_pos hlast, hlast]
    · simp only [cvBatch, hstart, if_neg hlast]
      unfold cvTestBlock
      rw [if_neg hlast]
  · intro start num hsn r
    simp only [extract_data, List.mem_append, List.mem_range,
      List.mem_range'_1]
    omega
  · unfold cross_validate_run
    rw [cvStateAt_spec cv runO params0 hk cv.kfold (Nat.le_refl _)]

/-- Witness for `C3_cv_contiguous_folds`: 5 rows, 2 folds. -/
theorem C3_cv_contiguous_folds_witness :
    (cross_validate_run ⟨5, 2, fun j => (j : ℚ)⟩
        (fun _ p => (p, fun _ => 0)) []).1
      = ((List.range 2).map
          (cvFoldErr ⟨5, 2, fun j => (j : ℚ)⟩ (fun _ p => (p, fun _ => 0)) [])).sum
        / ((List.range 2).map (cvFoldNorm ⟨5, 2, fun j => (j : ℚ)⟩)).sum :=
  (C3_cv_contiguous_folds ⟨5, 2, fun j => (j : ℚ)⟩
    (fun _ p => (p, fun _ => 0)) [] (by decide)).2.2

/-- C4: the flat parameter vector is snapshotted before the first fold and
restored after every fold: `cross_validate_run` returns with the entry
parameters intact, and every fold's training call starts from the entry
parameters (no fold observes parameters optimized by a previous fold). -/
theorem C4_cv_params_restored (cv : CVData) (runO : RunOracle)
    (params0 : List ℚ) (hk : 0 < cv.kfold) :
    (cross_validate_run cv runO params0).2 = params0 ∧
    (∀ i, i < cv.kfold → (cvStateAt cv runO params0 i).params = params0) := by
  constructor
  · unfold cross_validate_run
    rw [cvStateAt_spec cv runO params0 hk cv.kfold (Nat.le_refl _)]
  · intro i hi
    rw [cvStateAt_spec cv runO params0 hk i (Nat.le_of_lt hi)]

/-- Witness for `C4_cv_params_restored`. -/
theorem C4_cv_params_restored_witness :
    (cross_validate_run ⟨5, 2, fun j => (j : ℚ)⟩
        (fun _ _ => ([7], fun _ => 3)) [1, 2]).2 = [1, 2] :=
  (C4_cv_params_restored ⟨5, 2, fun j => (j : ℚ)⟩
    (fun _ _ => ([7], fun _ => 3)) [1, 2] (by decide)).1

/-! ## Rank adaptation (claims C5, C6)

`ft_regress_run_rankadapt` is a loop over at most `maxiter = 10` outer
iterations.  The external collaborators — `function_train_round` (whose
contract is that ranks never grow), `function_train_get_params` on the
rounded train, `cross_validate_run`, and `ft_regress_run` — are oracles
indexed by the current FT ranks and/or the iteration number.  The model
tracks the `ranks` working array, the ranks of the current answer `ft`,
the ranks of the live `FTparam` parameterization (a regression run returns
a train with exactly the parameterization's ranks), the parameter vector
(abstract type `P`), the accepted CV error, and the rank-restriction
thresholds. -/
structure AdaptOracles (P : Type) where
  roundO : (ℕ → ℕ) → ℕ → ℕ → ℕ
  roundParamsO : ℕ → P
  cvO : ℕ → ℚ
  runO : ℕ → P
  finalRunO : P

structure AdaptState (P : Type) where
  ranks : ℕ → ℕ
  ftRanks : ℕ → ℕ
  ftpRanks : ℕ → ℕ
  params : P
  err : ℚ
  restrict : ℕ → ℕ
  iters : ℕ

/-- The kick loop over dimensions `1 ≤ ii < dim`: a dimension is kicked
exactly when its rounded rank equals its current rank; a kick adds
`kickrank` and caps the result at `maxrank`. -/
def kickedRanks (dim kickrank maxrank : ℕ) (rounded ranks : ℕ → ℕ) : ℕ → ℕ :=
  fun ii =>
    if 1 ≤ ii ∧ ii < dim ∧ rounded ii = ranks ii
    then min (ranks ii + kickrank) maxrank
    else ranks ii

/-- The same loop's update of `restrict_rank_opt[ii-1] = ranks[ii]` for
each kicked dimension. -/
def kickedRestrict (dim : ℕ) (rounded ranks restrict0 : ℕ → ℕ) : ℕ → ℕ :=
  fun m =>
    if m + 1 < dim ∧ rounded (m+1) = ranks (m+1)
    then ranks (m+1)
    else restrict0 m

/-- `kicked`: whether some dimension `1 ≤ ii < dim` was kicked. -/
def kickedFlag (dim : ℕ) (rounded ranks : ℕ → ℕ) : Bool :=
  (List.range dim).any (fun ii => decide (1 ≤ ii) && decide (rounded ii = ranks ii))

/-- `allmax`: every dimension `1 ≤ ii < dim` is at `maxrank` (checked on
the post-kick ranks). -/
def allmaxFlag (dim maxrank : ℕ) (ranks : ℕ → ℕ) : Bool :=
  (List.range dim).all (fun ii => decide (ii = 0) || decide (maxrank ≤ ranks ii))

/-- The adaptation loop (`for (jj = 0; jj < maxiter; jj++)`), one recursion
step per outer iteration: round the current train; kick; stop if nothing
was kicked or all dimensions are at `maxrank`; otherwise re-parameterize to
the kicked ranks and compare the new cross-validation error against the
accepted one — roll back to the rounded train and stop if it worsened,
else accept and continue.  (The parameter warm-start written into the
`FTparam` before the CV run is overwritten on both branches — CV restores
the snapshot and both exits install their own parameters — so the model
does not track the intermediate value.) -/
def adaptLoop (dim kickrank maxrank : ℕ) {P : Type} (oc : AdaptOracles P)
    (oor : Bool) : ℕ → ℕ → AdaptState P → AdaptState P
  | 0, _, s => s
  | fuel+1, jj, s =>
    let rounded := oc.roundO s.ftRanks jj
    let ranks' := kickedRanks dim kickrank maxrank rounded s.ranks
    let restrict' := kickedRestrict dim rounded s.ranks s.restrict
    if kickedFlag dim rounded s.ranks = false
        ∨ allmaxFlag dim maxrank ranks' = true then
      { s with ranks := ranks', restrict := restrict', iters := s.iters + 1 }
    else
      let restrict'' := if oor then restrict' else fun _ => 0
      if s.err < oc.cvO jj then
        { ranks := ranks', ftRanks := rounded, ftpRanks := rounded,
          params := oc.roundParamsO jj, err := s.err, restrict := restrict'',
          iters := s.iters + 1 }
      else
        adaptLoop dim kickrank maxrank oc oor fuel (jj+1)
          { ranks := ranks', ftRanks := ranks', ftpRanks := ranks',
            params := oc.runO jj, err := oc.cvO jj, restrict := restrict'',
            iters := s.iters + 1 }

/-- `ft_regress_run_rankadapt`: initial CV error `err0` and initial
regression run (ranks `r0`, parameters `p0`), then the adaptation loop
with `maxiter = 10`, then the optional `finalize` re-run with no rank
restriction.  The second component is the rank vector of the returned
function train. -/
def ft_regress_run_rankadapt (dim kickrank maxrank : ℕ) {P : Type}
    (oc : AdaptOracles P) (oor finalize : Bool) (r0 : ℕ → ℕ) (p0 : P)
    (err0 : ℚ) : AdaptState P × (ℕ → ℕ) :=
  let s0 : AdaptState P := ⟨r0, r0, r0, p0, err0, fun _ => 0, 0⟩
  let s := adaptLoop dim kickrank maxrank oc oor 10 0 s0
  if finalize then
    let sFin := { s with
      restrict := (fun _ => 0),
      ftRanks := s.ftpRanks,
      params := oc.finalRunO }
    (sFin, s.ftpRanks)
  else (s, s.ftRanks)

/-- All interior dimensions of a rank vector are bounded by `maxrank`. -/
def interiorBounded (dim maxrank : ℕ) (f : ℕ → ℕ) : Prop :=
  ∀ ii, 1 ≤ ii → ii < dim → f ii ≤ maxrank

theorem kickedRanks_bounded (dim kickrank maxrank : ℕ) (rounded ranks : ℕ → ℕ)
    (h : interiorBounded dim maxrank ranks) :
    interiorBounded dim maxrank (kickedRanks dim kickrank maxrank rounded ranks) := by
  intro ii h1 h2
  unfold kickedRanks
  by_cases hc : 1 ≤ ii ∧ ii < dim ∧ rounded ii = ranks ii
  · rw [if_pos hc]; exact Nat.min_le_right _ _
  · rw [if_neg hc]; exact h ii h1 h2

/-- Invariant: if all three tracked rank vectors are interior-bounded by
`maxrank` and rounding never increases a rank, the adaptation loop
preserves the bounds. -/
theorem adaptLoop_bounded (dim kickrank maxrank : ℕ) {P : Type}
    (oc : AdaptOracles P) (oor : Bool)
    (hround : ∀ r jj ii, oc.roundO r jj ii ≤ r ii) :
    ∀ (fuel jj : ℕ) (s : AdaptState P),
      interiorBounded dim maxrank s.ranks →
      interiorBounded dim maxrank s.ftRanks →
      interiorBounded dim maxrank s.ftpRanks →
      interiorBounded dim maxrank (adaptLoop dim kickrank maxrank oc oor fuel jj s).ranks ∧
      interiorBounded dim maxrank (adaptLoop dim kickrank maxrank oc oor fuel jj s).ftRanks ∧
      interiorBounded dim maxrank (adaptLoop dim kickrank maxrank oc oor fuel jj s).ftpRanks := by
  intro fuel
  induction fuel with
  | zero => intro jj s h1 h2 h3; exact ⟨h1, h2, h3⟩
  | succ fuel ih =>
      intro jj s h1 h2 h3
      have hker : interiorBounded dim maxrank
          (kickedRanks dim kickrank maxrank (oc.roundO s.ftRanks jj) s.ranks) :=
        kickedRanks_bounded dim kickrank maxrank _ _ h1
      have hrnd : interiorBounded dim maxrank (oc.roundO s.ftRanks jj) :=
        fun ii hi1 hi2 => Nat.le_trans (hround _ _ _) (h2 ii hi1 hi2)
      unfold adaptLoop
      by_cases hbrk : kickedFlag dim (oc.roundO s.ftRanks jj) s.ranks = false
          ∨ allmaxFlag dim maxrank
              (kickedRanks dim kickrank maxrank (oc.roundO s.ftRanks jj) s.ranks) = true
      · rw [if_pos hbrk]; exact ⟨hker, h2, h3⟩
      · rw [if_neg hbrk]
        by_cases hcv : s.err < oc.cvO jj
        · rw [if_pos hcv]; exact ⟨hker, hrnd, hrnd⟩
        · rw [if_neg hcv]; exact ih (jj+1) _ hker hker hker

/-- The loop executes at most `fuel` further outer iterations. -/
theorem adaptLoop_iters (dim kickrank maxrank : ℕ) {P : Type}
    (oc : AdaptOracles P) (oor : Bool) :
    ∀ (fuel jj : ℕ) (s : AdaptState P),
      (adaptLoop dim kickrank maxrank oc oor fuel jj s).iters ≤ s.iters + fuel := by
  intro fuel
  induction fuel with
  | zero => intro jj s; simp [adaptLoop]
  | succ fuel ih =>
      intro jj s
      unfold adaptLoop
      by_cases hbrk : kickedFlag dim (oc.roundO s.ftRanks jj) s.ranks = false
          ∨ allmaxFlag dim maxrank
              (kickedRanks dim kickrank maxrank (oc.roundO s.ftRanks jj) s.ranks) = true
      · rw [if_pos hbrk]
        show s.iters + 1 ≤ s.iters + (fuel + 1)
        omega
      · rw [if_neg hbrk]
        by_cases hcv : s.err < oc.cvO jj
        · rw [if_pos hcv]
          show s.iters + 1 ≤ s.iters + (fuel + 1)
          omega
        · rw [if_neg hcv]
          refine Nat.le_trans (ih (jj+1) _) ?_
          show s.iters + 1 + fuel ≤ s.iters + (fuel + 1)
          omega

/-- Rounding oracle for the C5 counterexample: rank 1 everywhere (never
above the current rank, as `function_train_round` guarantees). -/
def c5RoundO : (ℕ → ℕ) → ℕ → ℕ → ℕ := fun r _ ii => min 1 (r ii)

def c5Oracles : AdaptOracles Unit :=
  ⟨c5RoundO, fun _ => (), fun _ => 0, fun _ => (), ()⟩

/-- Initial ranks (1, 20, 1) — the interior rank exceeds `maxrank = 10`. -/
def c5R0 : ℕ → ℕ := fun ii => if ii = 1 then 20 else 1

/-- C5 counterexample: with an initial interior rank of 20 and
`maxrank = 10`, rounding immediately drops the rank, so nothing is kicked,
the adaptation loop stops at once, and `ft_regress_run_rankadapt` returns
the initial train with rank 20 > maxrank.  The claim that the returned
train never exceeds `maxrank` is false without a bound on the initial
ranks. -/
theorem C5_counterexample :
    (ft_regress_run_rankadapt 2 5 10 c5Oracles false false c5R0 () 0).2 1 = 20
    ∧ ¬ (20 ≤ 10) := by
  constructor
  · rfl
  · decide

/-- C5 (amended): a dimension is kicked only when its rounded rank equals
its pre-round rank, a kick adds `kickrank` capped at `maxrank`, the loop
stops (leaving the current train) when nothing was kicked or all
dimensions are at `maxrank`, and — provided every interior dimension of
the initial ranks is at most `maxrank` and rounding never increases a
rank — the returned train never has an interior rank exceeding
`maxrank`. -/
theorem C5_rankadapt_maxrank {P : Type} (dim kickrank maxrank : ℕ)
    (oc : AdaptOracles P) (oor finalize : Bool) (r0 : ℕ → ℕ) (p0 : P)
    (err0 : ℚ)
    (hround : ∀ r jj ii, oc.roundO r jj ii ≤ r ii)
    (hinit : interiorBounded dim maxrank r0) :
    (∀ (rounded ranks : ℕ → ℕ) (ii : ℕ), 1 ≤ ii → ii < dim →
      kickedRanks dim kickrank maxrank rounded ranks ii
        = if rounded ii = ranks ii then min (ranks ii + kickrank) maxrank
          else ranks ii) ∧
    (∀ (fuel jj : ℕ) (s : AdaptState P),
      (kickedFlag dim (oc.roundO s.ftRanks jj) s.ranks = false
        ∨ allmaxFlag dim maxrank
            (kickedRanks dim kickrank maxrank (oc.roundO s.ftRanks jj) s.ranks)
          = true) →
      (adaptLoop dim kickrank maxrank oc oor (fuel+1) jj s).ftRanks
        = s.ftRanks) ∧
    interiorBounded dim maxrank
      (ft_regress_run_rankadapt dim kickrank maxrank oc oor finalize
        r0 p0 err0).2 := by
  refine ⟨?_, ?_, ?_⟩
  · intro rounded ranks ii h1 h2
    unfold kickedRanks
    by_cases hx : rounded ii = ranks ii
    · rw [if_pos ⟨h1, h2, hx⟩, if_pos hx]
    · rw [if_neg (fun hc => hx hc.2.2), if_neg hx]
  · intro fuel jj s hbrk
    unfold adaptLoop
    rw [if_pos hbrk]
  · obtain ⟨hA, hB, hC⟩ := adaptLoop_bounded dim kickrank maxrank oc oor hround
      10 0 ⟨r0, r0, r0, p0, err0, fun _ => 0, 0⟩ hinit hinit hinit
    unfold ft_regress_run_rankadapt
    cases finalize
    · exact hB
    · exact hC

/-- Witness for `C5_rankadapt_maxrank`: initial interior rank 3,
`maxrank = 10`; the returned interior rank stays at most 10. -/
theorem C5_rankadapt_maxrank_witness :
    (ft_regress_run_rankadapt 2 5 10 c5Oracles false false
      (fun _ => 3) () 0).2 1 ≤ 10 :=
  (C5_rankadapt_maxrank 2 5 10 c5Oracles false false (fun _ => 3) () 0
    (fun r jj ii => Nat.min_le_right _ _)
    (fun _ _ _ => by norm_num)).2.2 1 (by norm_num) (by norm_num)

/-- C6: after a kick (with not all dimensions at maxrank), the enlarged
model's cross-validation error is compared to the previously accepted
error: if it is larger, the loop stops and the pre-kick rounded train —
its ranks and its parameters — is restored as the answer; otherwise the
enlarged model is accepted, the accepted error becomes the new error, and
iteration continues; the outer loop is capped at `maxiter = 10`
iterations. -/
theorem C6_rankadapt_cv_compare {P : Type} (dim kickrank maxrank : ℕ)
    (oc : AdaptOracles P) (oor : Bool) :
    (∀ (fuel jj : ℕ) (s : AdaptState P),
      kickedFlag dim (oc.roundO s.ftRanks jj) s.ranks = true →
      allmaxFlag dim maxrank
          (kickedRanks dim kickrank maxrank (oc.roundO s.ftRanks jj) s.ranks)
        = false →
      ((s.err < oc.cvO jj →
          adaptLoop dim kickrank maxrank oc oor (fuel+1) jj s
            = ⟨kickedRanks dim kickrank maxrank (oc.roundO s.ftRanks jj) s.ranks,
               oc.roundO s.ftRanks jj, oc.roundO s.ftRanks jj,
               oc.roundParamsO jj, s.err,
               (if oor then
                  kickedRestrict dim (oc.roundO s.ftRanks jj) s.ranks s.restrict
                else fun _ => 0),
               s.iters + 1⟩) ∧
       (¬ s.err < oc.cvO jj →
          adaptLoop dim kickrank maxrank oc oor (fuel+1) jj s
            = adaptLoop dim kickrank maxrank oc oor fuel (jj+1)
                ⟨kickedRanks dim kickrank maxrank (oc.roundO s.ftRanks jj) s.ranks,
                 kickedRanks dim kickrank maxrank (oc.roundO s.ftRanks jj) s.ranks,
                 kickedRanks dim kickrank maxrank (oc.roundO s.ftRanks jj) s.ranks,
                 oc.runO jj, oc.cvO jj,
                 (if oor then
                    kickedRestrict dim (oc.roundO s.ftRanks jj) s.ranks s.restrict
                  else fun _ => 0),
                 s.iters + 1⟩))) ∧
    (∀ (finalize : Bool) (r0 : ℕ → ℕ) (p0 : P) (err0 : ℚ),
      (ft_regress_run_rankadapt dim kickrank maxrank oc oor finalize
        r0 p0 err0).1.iters ≤ 10) := by
  constructor
  · intro fuel jj s hk ha
    have hbrk : ¬ (kickedFlag dim (oc.roundO s.ftRanks jj) s.ranks = false
        ∨ allmaxFlag dim maxrank
            (kickedRanks dim kickrank maxrank (oc.roundO s.ftRanks jj) s.ranks)
          = true) := by
      simp [hk, ha]
    constructor
    · intro hcv
      unfold adaptLoop
      rw [if_neg hbrk, if_pos hcv]
    · intro hcv
      conv_lhs => unfold adaptLoop
      rw [if_neg hbrk, if_neg hcv]
  · intro finalize r0 p0 err0
    have h := adaptLoop_iters dim kickrank maxrank oc oor 10 0
      ⟨r0, r0, r0, p0, err0, fun _ => 0, 0⟩
    unfold ft_regress_run_rankadapt
    cases finalize
    · exact h
    · exact h

/-- Oracles and state for the C6 witness: identity rounding (every rank is
kicked), CV error 1 against accepted error 0, interior rank 5. -/
def c6Oracles : AdaptOracles Unit :=
  ⟨fun r _ ii => r ii, fun _ => (), fun _ => 1, fun _ => (), ()⟩

def c6S : AdaptState Unit :=
  ⟨fun _ => 5, fun _ => 5, fun _ => 5, (), 0, fun _ => 0, 0⟩

/-- Witness for `C6_rankadapt_cv_compare`: a worsening CV error rolls back
to the rounded train and stops. -/
theorem C6_rankadapt_cv_compare_witness :
    adaptLoop 2 1 10 c6Oracles false 10 0 c6S
      = ⟨kickedRanks 2 1 10 (c6Oracles.roundO c6S.ftRanks 0) c6S.ranks,
         c6Oracles.roundO c6S.ftRanks 0, c6Oracles.roundO c6S.ftRanks 0,
         c6Oracles.roundParamsO 0, c6S.err,
         (if false then
            kickedRestrict 2 (c6Oracles.roundO c6S.ftRanks 0) c6S.ranks
              c6S.restrict
          else fun _ => 0),
         c6S.iters + 1⟩ :=
  ((C6_rankadapt_cv_compare 2 1 10 c6Oracles false).1 9 0 c6S
    (by decide) (by decide)).1 (by norm_num [c6Oracles, c6S])

/-! ## Non-finite-value policy of the optimizer callbacks (claim C7)

C doubles are modelled as the affinely extended rationals plus NaN, with
IEEE-style propagation; `isnan`/`isinf` are the C predicates.  The
evaluation of the FT at the data points is an oracle (`evals`); what is
translated from the source is which values each callback checks and
whether it aborts (`Except.error`) or returns the computed objective. -/
inductive FVal where
  | fin (q : ℚ)
  | pinf
  | ninf
  | nan
deriving DecidableEq

def FVal.isnanB : FVal → Bool
  | nan => true
  | _ => false

def FVal.isinfB : FVal → Bool
  | pinf => true
  | ninf => true
  | _ => false

def FVal.add : FVal → FVal → FVal
  | nan, _ => nan
  | _, nan => nan
  | pinf, ninf => nan
  | ninf, pinf => nan
  | pinf, _ => pinf
  | _, pinf => pinf
  | ninf, _ => ninf
  | _, ninf => ninf
  | fin a, fin b => fin (a + b)

def FVal.neg : FVal → FVal
  | nan => nan
  | pinf => ninf
  | ninf => pinf
  | fin a => fin (-a)

def FVal.sub (x y : FVal) : FVal := x.add y.neg

def FVal.mul : FVal → FVal → FVal
  | nan, _ => nan
  | _, nan => nan
  | pinf, pinf => pinf
  | pinf, ninf => ninf
  | ninf, pinf => ninf
  | ninf, ninf => pinf
  | pinf, fin b => if b = 0 then nan else if 0 < b then pinf else ninf
  | fin a, pinf => if a = 0 then nan else if 0 < a then pinf else ninf
  | ninf, fin b => if b = 0 then nan else if 0 < b then ninf else pinf
  | fin a, ninf => if a = 0 then nan else if 0 < a then ninf else pinf
  | fin a, fin b => fin (a * b)

/-- Division by the data count `N` (`out /= (double) N`). -/
def FVal.divN : FVal → ℕ → FVal
  | nan, _ => nan
  | pinf, _ => pinf
  | ninf, _ => ninf
  | fin a, 0 => if a = 0 then nan else if 0 < a then pinf else ninf
  | fin a, (n+1) => fin (a / (n+1))

/-- One data point of the objective accumulation: `resid = y - eval`,
`out += 0.5 * resid * resid`. -/
def halfSq (y e : FVal) : FVal :=
  ((FVal.fin (1/2)).mul (y.sub e)).mul (y.sub e)

/-- The accumulation loop of `ft_param_eval_objective_aio_ls` with its
per-point checks: a NaN or Inf FT evaluation aborts, and an Inf running
objective aborts. -/
def aioLsLoop : List (FVal × FVal) → FVal → Except String FVal
  | [], out => .ok out
  | (y, e) :: rest, out =>
      if e.isnanB then .error "Warning, evaluation of FT is nan in aio_ls"
      else if e.isinfB then .error "Warning, evaluation of FT is inf in aio_ls"
      else
        let out1 := out.add (halfSq y e)
        if out1.isinfB then .error "out is inf"
        else aioLsLoop rest out1

/-- `ft_param_eval_objective_aio_ls` on the non-finite-value level:
accumulate with the per-point checks, divide by `N`, and abort if the
result is NaN or Inf. -/
def objective_aio_ls_fv (ys evals : List FVal) : Except String FVal := do
  let acc ← aioLsLoop (ys.zip evals) (FVal.fin 0)
  let out := acc.divN ys.length
  if out.isnanB then
    .error "Regress aio eval objective ls (with grad != NULL) is NaN"
  else if out.isinfB then
    .error "Regress aio eval objective ls (with grad != NULL) is Inf"
  else .ok out

/-- `regress_opts_minimize_aio`: checks every optimizer-supplied parameter
for NaN/Inf before evaluating, then checks the objective value again. -/
def regress_opts_minimize_aio (params ys evals : List FVal) :
    Except String FVal :=
  match params.find? (fun p => p.isnanB || p.isinfB) with
  | some p =>
      .error (if p.isnanB then "Optimizer requesting params that are NaN"
              else "Optimizer requesting params that are inf")
  | none => do
      let out ← objective_aio_ls_fv ys evals
      if out.isnanB then .error "Regress aio objective is NaN"
      else if out.isinfB then .error "Regress aio objective is Inf"
      else .ok out

/-- The accumulation loop of `ft_param_eval_objective_als_ls`: the same
arithmetic, with NO checks of any kind. -/
def alsLsLoop : List (FVal × FVal) → FVal → FVal
  | [], out => out
  | (y, e) :: rest, out => alsLsLoop rest (out.add (halfSq y e))

/-- `ft_param_eval_objective_als_ls` on the non-finite-value level. -/
def objective_als_ls_fv (ys evals : List FVal) : FVal :=
  (alsLsLoop (ys.zip evals) (FVal.fin 0)).divN ys.length

/-- `regress_opts_minimize_als`: updates the active core's parameters and
returns the ALS objective — it inspects neither the optimizer-supplied
parameters nor the FT evaluations nor the objective value for NaN/Inf. -/
def regress_opts_minimize_als (_params : List FVal) (ys evals : List FVal) :
    Except String FVal :=
  Except.ok (objective_als_ls_fv ys evals)

/-- C7 counterexample: the ALS callback, invoked with a NaN parameter and a
NaN FT evaluation, returns the non-finite objective value normally instead
of aborting — the fatal-abort policy does not apply to the ALS path. -/
theorem C7_als_returns_nan :
    regress_opts_minimize_als [FVal.nan] [FVal.fin 1] [FVal.nan]
      = Except.ok FVal.nan := by
  rfl

theorem aioLsLoop_error_of_nonfinite (l : List (FVal × FVal)) (out : FVal)
    (h : l.any (fun p => p.2.isnanB || p.2.isinfB) = true) :
    ∃ msg, aioLsLoop l out = Except.error msg := by
  induction l generalizing out with
  | nil => simp at h
  | cons p rest ih =>
      obtain ⟨y, e⟩ := p
      by_cases hn : e.isnanB = true
      · exact ⟨"Warning, evaluation of FT is nan in aio_ls",
          by simp [aioLsLoop, hn]⟩
      · by_cases hi : e.isinfB = true
        · exact ⟨"Warning, evaluation of FT is inf in aio_ls",
            by simp [aioLsLoop, hn, hi]⟩
        · have hrest : rest.any (fun p => p.2.isnanB || p.2.isinfB) = true := by
            simp only [List.any_cons, Bool.or_eq_true] at h
            rcases h with h | h
            · exact absurd h (by simp [hn, hi])
            · exact h
          by_cases ho : ((out.add (halfSq y e)).isinfB) = true
          · exact ⟨"out is inf", by simp [aioLsLoop, hn, hi, ho]⟩
          · obtain ⟨msg, hmsg⟩ := ih (out.add (halfSq y e)) hrest
            exact ⟨msg, by simp [aioLsLoop, hn, hi, ho, hmsg]⟩

/-- C7 (amended): the fatal-abort policy holds on the all-at-once path —
`regress_opts_minimize_aio` aborts whenever any optimizer-supplied
parameter is NaN or Inf, and the objective evaluation aborts whenever any
FT evaluation it consumes is NaN or Inf — but the ALS callback
`regress_opts_minimize_als` performs no such checks and always returns a
value, even a non-finite one. -/
theorem C7_nonfinite_policy (params ys evals : List FVal)
    (h : ∃ p ∈ params, p.isnanB = true ∨ p.isinfB = true) :
    (∃ msg, regress_opts_minimize_aio params ys evals = Except.error msg) ∧
    (∀ ys' evals' : List FVal,
      (ys'.zip evals').any (fun p => p.2.isnanB || p.2.isinfB) = true →
      ∃ msg, objective_aio_ls_fv ys' evals' = Except.error msg) ∧
    (∀ params' ys' evals' : List FVal,
      ∃ v, regress_opts_minimize_als params' ys' evals' = Except.ok v) := by
  refine ⟨?_, ?_, ?_⟩
  · have hfind : (params.find? (fun p => p.isnanB || p.isinfB)).isSome := by
      rw [List.find?_isSome]
      obtain ⟨p, hp, hor⟩ := h
      exact ⟨p, hp, by rcases hor with h' | h' <;> simp [h']⟩
    obtain ⟨q, hq⟩ := Option.isSome_iff_exists.mp hfind
    exact ⟨_, by unfold regress_opts_minimize_aio; rw [hq]⟩
  · intro ys' evals' hany
    obtain ⟨msg, hmsg⟩ :=
      aioLsLoop_error_of_nonfinite (ys'.zip evals') (FVal.fin 0) hany
    exact ⟨msg, by unfold objective_aio_ls_fv; rw [hmsg]; rfl⟩
  · intro params' ys' evals'
    exact ⟨_, rfl⟩

/-- Witness for `C7_nonfinite_policy`: an Inf parameter aborts the AIO
callback. -/
theorem C7_nonfinite_policy_witness :
    ∃ msg, regress_opts_minimize_aio [FVal.pinf] [] [] = Except.error msg :=
  (C7_nonfinite_policy [FVal.pinf] [] []
    ⟨FVal.pinf, List.mem_singleton.mpr rfl, Or.inr rfl⟩).1

/-! ## Regression memory manager structure cache (claim C8)

`regress_mem_manager_check_structure` recomputes nothing unless the
manager was allocated with `LINEAR_ST` structure and the
`once_eval_structure` flag is still 0.  The per-dimension gradient-block
computation (`qmarray_param_grad_eval` over the training set `x`) is an
oracle `computeO`. -/
inductive FTPARAM_ST where
  | LINEAR_ST
  | NONE_ST
deriving DecidableEq

structure RegressionMemManager (β : Type) where
  st : FTPARAM_ST
  once_eval_structure : Bool
  lin_structure_vals : Option β

/-- `regress_mem_manager_alloc` sets `once_eval_structure = 0` and leaves
the linear-structure cache unset. -/
def regress_mem_manager_alloc (β : Type) (st : FTPARAM_ST) :
    RegressionMemManager β :=
  ⟨st, false, none⟩

/-- `regress_mem_manager_check_structure`: computes and caches the
per-dimension linear-structure blocks exactly when the structure is
`LINEAR_ST` and the flag is unset, then raises the flag; otherwise it does
nothing. -/
def regress_mem_manager_check_structure {β γ : Type} (computeO : γ → β)
    (mem : RegressionMemManager β) (x : γ) : RegressionMemManager β :=
  if mem.st = FTPARAM_ST.LINEAR_ST ∧ mem.once_eval_structure = false then
    { mem with once_eval_structure := true,
               lin_structure_vals := some (computeO x) }
  else mem

/-- C8: on a fresh `LINEAR_ST` manager the first call computes the blocks
from its training set and sets the flag; any call on a manager whose flag
is set is a no-op; a second call — even with a different training set —
never recomputes or changes the cached blocks; and on a `NONE_ST` manager
the blocks are never computed. -/
theorem C8_check_structure_once {β γ : Type} (computeO : γ → β) :
    (∀ x : γ,
      regress_mem_manager_check_structure computeO
          (regress_mem_manager_alloc β FTPARAM_ST.LINEAR_ST) x
        = ⟨FTPARAM_ST.LINEAR_ST, true, some (computeO x)⟩) ∧
    (∀ (mem : RegressionMemManager β) (x' : γ),
      mem.once_eval_structure = true →
      regress_mem_manager_check_structure computeO mem x' = mem) ∧
    (∀ (mem : RegressionMemManager β) (x x' : γ),
      regress_mem_manager_check_structure computeO
          (regress_mem_manager_check_structure computeO mem x) x'
        = regress_mem_manager_check_structure computeO mem x) ∧
    (∀ (mem : RegressionMemManager β) (x : γ),
      mem.st = FTPARAM_ST.NONE_ST →
      regress_mem_manager_check_structure computeO mem x = mem) := by
  refine ⟨?_, ?_, ?_, ?_⟩
  · intro x
    unfold regress_mem_manager_check_structure regress_mem_manager_alloc
    rw [if_pos ⟨rfl, rfl⟩]
  · intro mem x' honce
    unfold regress_mem_manager_check_structure
    rw [if_neg (fun hc => by rw [honce] at hc; exact absurd hc.2 (by decide))]
  · intro mem x x'
    by_cases h : mem.st = FTPARAM_ST.LINEAR_ST ∧ mem.once_eval_structure = false
    · unfold regress_mem_manager_check_structure
      rw [if_pos h]
      rw [if_neg (fun hc => by simp at hc)]
    · unfold regress_mem_manager_check_structure
      rw [if_neg h, if_neg h]
  · intro mem x hst
    unfold regress_mem_manager_check_structure
    rw [if_neg (fun hc => by rw [hst] at hc; cases hc.1)]

/-- Witness for `C8_check_structure_once`: the second call, with a
different training set, changes nothing. -/
theorem C8_check_structure_once_witness :
    regress_mem_manager_check_structure (fun x : ℕ => x + 1)
        (regress_mem_manager_check_structure (fun x : ℕ => x + 1)
          (regress_mem_manager_alloc ℕ FTPARAM_ST.LINEAR_ST) 5) 99
      = regress_mem_manager_check_structure (fun x : ℕ => x + 1)
          (regress_mem_manager_alloc ℕ FTPARAM_ST.LINEAR_ST) 5 :=
  (C8_check_structure_once (fun x : ℕ => x + 1)).2.2.1
    (regress_mem_manager_alloc ℕ FTPARAM_ST.LINEAR_ST) 5 99

/-! ## ALS sweep driver (claim C9)

`c3_regression_run_als` runs sweeps `1 .. max_als_sweeps`.  Within a
sweep, the forward loop optimizes cores `0 .. dim-1` and the backward loop
(`for (jj = 1; jj < dim-1; jj++) ii = dim-1-jj`) optimizes cores
`dim-2 .. 1`.  The per-core optimization (`c3opt_minimize` +
`ft_param_update_core_params`), `function_train_norm2diff`, and
`function_train_norm2` are oracles over an abstract train type `α`. -/
structure ALSOracles (α : Type) where
  optO : ℕ → ℕ → α → α
  diffO : α → α → ℚ
  normO : α → ℚ

/-- The cores visited by the backward loop of a sweep. -/
def alsBackwardCores (dim : ℕ) : List ℕ :=
  (List.range' 1 (dim - 2)).map (fun jj => dim - 1 - jj)

/-- The cores visited by one full sweep, in order. -/
def alsSweepCores (dim : ℕ) : List ℕ :=
  List.range dim ++ alsBackwardCores dim

/-- One sweep: optimize each visited core in order. -/
def alsSweep {α : Type} (oc : ALSOracles α) (dim sweep : ℕ) (ft : α) : α :=
  (alsSweepCores dim).foldl (fun f core => oc.optO sweep core f) ft

/-- The sweep loop: after each sweep compute
`diff = ||ft_after - ft_before||`, `no = ||ft_after||`, and break as soon
as `diff / no < als_conv_tol`.  Returns the final train, the list of
per-sweep convergence ratios (one per executed sweep), and the visited
core trace. -/
def alsLoop {α : Type} (oc : ALSOracles α) (dim : ℕ) (tol : ℚ) :
    ℕ → ℕ → α → α × List ℚ × List ℕ
  | 0, _, ft => (ft, [], [])
  | fuel+1, sweep, ft =>
      let ft1 := alsSweep oc dim sweep ft
      let ratio := oc.diffO ft1 ft / oc.normO ft1
      if ratio < tol then (ft1, [ratio], alsSweepCores dim)
      else
        let r := alsLoop oc dim tol fuel (sweep+1) ft1
        (r.1, ratio :: r.2.1, alsSweepCores dim ++ r.2.2)

/-- `c3_regression_run_als`: sweeps `1 .. max_als_sweeps`. -/
def c3_regression_run_als {α : Type} (oc : ALSOracles α)
    (dim max_als_sweeps : ℕ) (tol : ℚ) (ft0 : α) : α × List ℚ × List ℕ :=
  alsLoop oc dim tol max_als_sweeps 1 ft0

theorem alsBackwardCores_eq_reverse (dim : ℕ) :
    alsBackwardCores dim = (List.range' 1 (dim - 2)).reverse := by
  unfold alsBackwardCores
  rw [List.reverse_range', List.range'_eq_map_range, List.map_map]
  refine congrFun (congrArg _ ?_) _
  funext i
  simp only [Function.comp_apply]
  omega

theorem alsLoop_trace {α : Type} (oc : ALSOracles α) (dim : ℕ) (tol : ℚ) :
    ∀ (fuel sweep : ℕ) (ft : α),
      (alsLoop oc dim tol fuel sweep ft).2.2
        = (alsLoop oc dim tol fuel sweep ft).2.1.flatMap
            (fun _ => alsSweepCores dim) := by
  intro fuel
  induction fuel with
  | zero => intro sweep ft; simp [alsLoop]
  | succ fuel ih =>
      intro sweep ft
      unfold alsLoop
      by_cases hc : (oc.diffO (alsSweep oc dim sweep ft) ft
          / oc.normO (alsSweep oc dim sweep ft)) < tol
      · rw [if_pos hc]; simp
      · rw [if_neg hc]
        simp only [List.flatMap_cons]
        rw [← ih (sweep+1) (alsSweep oc dim sweep ft)]

theorem alsLoop_len {α : Type} (oc : ALSOracles α) (dim : ℕ) (tol : ℚ) :
    ∀ (fuel sweep : ℕ) (ft : α),
      (alsLoop oc dim tol fuel sweep ft).2.1.length ≤ fuel := by
  intro fuel
  induction fuel with
  | zero => intro sweep ft; simp [alsLoop]
  | succ fuel ih =>
      intro sweep ft
      unfold alsLoop
      by_cases hc : (oc.diffO (alsSweep oc dim sweep ft) ft
          / oc.normO (alsSweep oc dim sweep ft)) < tol
      · rw [if_pos hc]; simp
      · rw [if_neg hc]
        simp only [List.length_cons]
        exact Nat.succ_le_succ (ih (sweep+1) _)

theorem alsLoop_no_early_stop {α : Type} (oc : ALSOracles α) (dim : ℕ)
    (tol : ℚ) :
    ∀ (fuel sweep : ℕ) (ft : α),
      ∀ x ∈ (alsLoop oc dim tol fuel sweep ft).2.1.dropLast, ¬ x < tol := by
  intro fuel
  induction fuel with
  | zero => intro sweep ft x hx; simp [alsLoop] at hx
  | succ fuel ih =>
      intro sweep ft x hx
      unfold alsLoop at hx
      by_cases hc : (oc.diffO (alsSweep oc dim sweep ft) ft
          / oc.normO (alsSweep oc dim sweep ft)) < tol
      · rw [if_pos hc] at hx; simp at hx
      · rw [if_neg hc] at hx
        simp only at hx
        rcases hrest : (alsLoop oc dim tol fuel (sweep+1)
            (alsSweep oc dim sweep ft)).2.1 with _ | ⟨b, l⟩
        · rw [hrest] at hx; simp at hx
        · rw [hrest] at hx
          rw [List.dropLast_cons₂] at hx
          rcases List.mem_cons.mp hx with h | h
          · exact h ▸ hc
          · have := ih (sweep+1) (alsSweep oc dim sweep ft) x
            rw [hrest] at this
            exact this h

theorem alsLoop_stops_on_conv {α : Type} (oc : ALSOracles α) (dim : ℕ)
    (tol : ℚ) :
    ∀ (fuel sweep : ℕ) (ft : α),
      (alsLoop oc dim tol fuel sweep ft).2.1.length < fuel →
      ∃ rr, (alsLoop oc dim tol fuel sweep ft).2.1.getLast? = some rr
        ∧ rr < tol := by
  intro fuel
  induction fuel with
  | zero => intro sweep ft h; simp [alsLoop] at h
  | succ fuel ih =>
      intro sweep ft h
      unfold alsLoop at h ⊢
      by_cases hc : (oc.diffO (alsSweep oc dim sweep ft) ft
          / oc.normO (alsSweep oc dim sweep ft)) < tol
      · rw [if_pos hc] at h ⊢
        exact ⟨_, rfl, hc⟩
      · rw [if_neg hc] at h ⊢
        simp only [List.length_cons] at h
        obtain ⟨rr, hlast, hrr⟩ := ih (sweep+1) (alsSweep oc dim sweep ft)
          (Nat.lt_of_succ_lt_succ h)
        refine ⟨rr, ?_, hrr⟩
        simp only
        rcases hrest : (alsLoop oc dim tol fuel (sweep+1)
            (alsSweep oc dim sweep ft)).2.1 with _ | ⟨b, l⟩
        · rw [hrest] at hlast; simp at hlast
        · rw [hrest] at hlast
          rw [List.getLast?_cons_cons]
          exact hlast

/-- C9: each sweep optimizes one active core at a time, visiting cores
`0 .. dim-1` left-to-right and then `dim-2 .. 1` right-to-left; the visited
trace is one such block per executed sweep; at most `max_als_sweeps`
sweeps run; every sweep before the last had relative change ≥ tol (the
loop stops as soon as `||ft_after - ft_before|| / ||ft_after|| < tol`);
and if fewer than `max_als_sweeps` sweeps ran, the last sweep's ratio was
below tol. -/
theorem C9_als_sweep_structure {α : Type} (oc : ALSOracles α)
    (dim max_als_sweeps : ℕ) (tol : ℚ) (ft0 : α) :
    (alsSweepCores dim = List.range dim ++ (List.range' 1 (dim - 2)).reverse) ∧
    ((c3_regression_run_als oc dim max_als_sweeps tol ft0).2.2
      = (c3_regression_run_als oc dim max_als_sweeps tol ft0).2.1.flatMap
          (fun _ => alsSweepCores dim)) ∧
    ((c3_regression_run_als oc dim max_als_sweeps tol ft0).2.1.length
      ≤ max_als_sweeps) ∧
    (∀ x ∈ (c3_regression_run_als oc dim max_als_sweeps tol ft0).2.1.dropLast,
      ¬ x < tol) ∧
    ((c3_regression_run_als oc dim max_als_sweeps tol ft0).2.1.length
        < max_als_sweeps →
      ∃ rr, (c3_regression_run_als oc dim max_als_sweeps tol ft0).2.1.getLast?
          = some rr ∧ rr < tol) := by
  refine ⟨?_, ?_, ?_, ?_, ?_⟩
  · unfold alsSweepCores
    rw [alsBackwardCores_eq_reverse]
  · exact alsLoop_trace oc dim tol max_als_sweeps 1 ft0
  · exact alsLoop_len oc dim tol max_als_sweeps 1 ft0
  · exact alsLoop_no_early_stop oc dim tol max_als_sweeps 1 ft0
  · exact alsLoop_stops_on_conv oc dim tol max_als_sweeps 1 ft0

/-- Concrete oracles for the C9 witness: the train is a counter, every
sweep changes it, diff 1 and norm 1 so no sweep converges below tol. -/
def c9Oracles : ALSOracles ℕ :=
  ⟨fun _ _ f => f + 1, fun _ _ => 1, fun _ => 1⟩

/-- Witness for `C9_als_sweep_structure`: 3 cores, 2 sweeps, visiting
0,1,2 then 1 in each sweep. -/
theorem C9_als_sweep_structure_witness :
    (c3_regression_run_als c9Oracles 3 2 (1/2 : ℚ) 0).2.2
      = (c3_regression_run_als c9Oracles 3 2 (1/2 : ℚ) 0).2.1.flatMap
          (fun _ => alsSweepCores 3) :=
  (C9_als_sweep_structure c9Oracles 3 2 (1/2 : ℚ) 0).2.1

/-! ## Function monitor memoization (claim C10)

`monitoring.c`: the hash table stores (serialized point, serialized value)
pairs in per-bucket linked lists; `pair_push` prepends, `lookup_key` walks
the bucket and returns the first match.  Keys are C strings, modelled as
lists of character codes; the external serialization of a coordinate
vector (`serialize_darray_to_text`, from the excluded `stringmanip.c`) is
an abstract function `ser`, and the double ↔ text serialization is the
abstract pair `serV`/`deserV` whose round-trip property is the theorem's
hypothesis. -/

/-- `hashsimple`: `hashval = c + (hashval << 5) - hashval`, a `size_t`
(wrap-around mod 2^64) accumulation, reduced mod the table size. -/
def hashsimple (size : ℕ) (str : List ℕ) : ℕ :=
  (str.foldl (fun h c => (c + 31 * h) % 2^64) 0) % size

structure HashtableCpair (V : Type) where
  size : ℕ
  table : ℕ → List (List ℕ × V)

/-- `create_hashtable_cp`: all buckets empty. -/
def create_hashtable_cp (V : Type) (size : ℕ) : HashtableCpair V :=
  ⟨size, fun _ => []⟩

/-- `lookup_key`: walk the bucket of the key's hash; return the stored
value of the first pair whose key matches. -/
def lookup_key {V : Type} (ht : HashtableCpair V) (key : List ℕ) : Option V :=
  ((ht.table (hashsimple ht.size key)).find?
    (fun p => decide (p.1 = key))).map (fun p => p.2)

/-- `add_cpair`: if the key is already present return 2 and leave the
table unchanged, else push the pair onto the front of its bucket and
return 0. -/
def add_cpair {V : Type} (ht : HashtableCpair V) (key : List ℕ) (v : V) :
    ℕ × HashtableCpair V :=
  match lookup_key ht key with
  | some _ => (2, ht)
  | none =>
      (0, { ht with table := fun i =>
              if i = hashsimple ht.size key then (key, v) :: ht.table i
              else ht.table i })

/-- `function_monitor_eval`: serialize the point; on a hit, deserialize
and return the stored value without calling the wrapped function; on a
miss, call the function once, store its serialized value, and return it.
The Boolean records whether the wrapped function was called. -/
def function_monitor_eval {X V : Type} (f : X → ℚ) (ser : X → List ℕ)
    (serV : ℚ → V) (deserV : V → ℚ) (fm : HashtableCpair V) (x : X) :
    ℚ × HashtableCpair V × Bool :=
  match lookup_key fm (ser x) with
  | some sval => (deserV sval, fm, false)
  | none =>
      let val := f x
      (val, (add_cpair fm (ser x) (serV val)).2, true)

theorem lookup_key_add {V : Type} (ht : HashtableCpair V) (key : List ℕ)
    (v : V) (h : lookup_key ht key = none) :
    lookup_key (add_cpair ht key v).2 key = some v := by
  unfold add_cpair
  rw [h]
  unfold lookup_key
  simp only [if_pos rfl, ite_true]
  rw [List.find?_cons_of_pos _ (by simp)]
  rfl

/-- C10: the function monitor evaluates the wrapped function at most once
per distinct input point.  A hit deserializes the stored value and does
not call the function; `add_cpair` on an existing key returns 2 and leaves
the table unchanged; and a second evaluation at the same point never calls
the function, returns the same value as the first, and leaves the table
unchanged (given the double serialization round-trip). -/
theorem C10_monitor_memoization {X V : Type} (f : X → ℚ) (ser : X → List ℕ)
    (serV : ℚ → V) (deserV : V → ℚ) (hrt : ∀ q, deserV (serV q) = q) :
    (∀ (fm : HashtableCpair V) (x : X) (sval : V),
      lookup_key fm (ser x) = some sval →
      function_monitor_eval f ser serV deserV fm x = (deserV sval, fm, false)) ∧
    (∀ (ht : HashtableCpair V) (key : List ℕ) (v : V),
      lookup_key ht key ≠ none → add_cpair ht key v = (2, ht)) ∧
    (∀ (fm : HashtableCpair V) (x : X),
      (function_monitor_eval f ser serV deserV
        (function_monitor_eval f ser serV deserV fm x).2.1 x).2.2 = false ∧
      (function_monitor_eval f ser serV deserV
        (function_monitor_eval f ser serV deserV fm x).2.1 x).1
        = (function_monitor_eval f ser serV deserV fm x).1 ∧
      (function_monitor_eval f ser serV deserV
        (function_monitor_eval f ser serV deserV fm x).2.1 x).2.1
        = (function_monitor_eval f ser serV deserV fm x).2.1) := by
  refine ⟨?_, ?_, ?_⟩
  · intro fm x sval hl
    unfold function_monitor_eval
    rw [hl]
  · intro ht key v hne
    rcases hsome : lookup_key ht key with _ | w
    · exact absurd hsome hne
    · unfold add_cpair
      rw [hsome]
  · intro fm x
    rcases hl : lookup_key fm (ser x) with _ | sval
    · have h1 : function_monitor_eval f ser serV deserV fm x
          = (f x, (add_cpair fm (ser x) (serV (f x))).2, true) := by
        unfold function_monitor_eval
        rw [hl]
      have h2 : lookup_key (add_cpair fm (ser x) (serV (f x))).2 (ser x)
          = some (serV (f x)) := lookup_key_add fm (ser x) (serV (f x)) hl
      have h3 : function_monitor_eval f ser serV deserV
          (add_cpair fm (ser x) (serV (f x))).2 x
          = (deserV (serV (f x)), (add_cpair fm (ser x) (serV (f x))).2,
             false) := by
        unfold function_monitor_eval
        rw [h2]
      rw [h1]
      simp only [h3, hrt]
      exact ⟨trivial, trivial, trivial⟩
    · have h1 : function_monitor_eval f ser serV deserV fm x
          = (deserV sval, fm, false) := by
        unfold function_monitor_eval
        rw [hl]
      rw [h1]
      simp only [h1]
      exact ⟨trivial, trivial, trivial⟩

/-- Witness for `C10_monitor_memoization`: a second evaluation at the same
point does not call the wrapped function. -/
theorem C10_monitor_memoization_witness :
    (function_monitor_eval (fun n : ℕ => (n : ℚ)) (fun n => [n]) id id
      (function_monitor_eval (fun n : ℕ => (n : ℚ)) (fun n => [n]) id id
        (create_hashtable_cp ℚ 7) 3).2.1 3).2.2 = false :=
  ((C10_monitor_memoization (fun n : ℕ => (n : ℚ)) (fun n => [n]) id id
    (fun _ => rfl)).2.2 (create_hashtable_cp ℚ 7) 3).1
